import Mathlib

/-!
Verification development for the analytics ingestion-and-normalization
pipeline (`pipeline_ingest.py` and the Airflow step DAG
`dags/analytics_pipeline_steps.py`).

The Python code is shallowly embedded: JSON values are an inductive type;
Python dicts parsed from JSON are association lists; SQLite tables are
lists of row structures; `INSERT OR IGNORE` is key-guarded list append;
UPDATE statements are maps over rows.  The SQLite engine's `json_extract`,
`strftime` date parsing, text affinity and string MIN/MAX aggregation are
modelled directly (the storage engine is an external collaborator of the
repository; its documented semantics are embedded where the pipeline's SQL
relies on them).  The checkpoint file is a flat character list to which
`save_checkpoint` appends one line per path, exactly as the source writes
`p + "\n"`.
-/

set_option autoImplicit false

namespace Pipeline

/-- A JSON value as produced by `json.loads`.  Numbers are modelled as
integers (the pipeline's extracted numeric field, `edit_chars_delta`, is an
integer; floats play no role in any claim). -/
inductive JsonVal where
  | null
  | bool (b : Bool)
  | int (n : Int)
  | str (s : String)
  | arr (xs : List JsonVal)
  | obj (fields : List (String × JsonVal))
deriving Repr

/-- A parsed JSON object: the Python dict that `ingest_raw` iterates over. -/
abbrev Record := List (String × JsonVal)

/-- Python dict `get`: first binding of the key, `None` if absent. -/
def pyGet (ev : Record) (k : String) : Option JsonVal :=
  (ev.find? (fun kv => kv.1 == k)).map (·.2)

/-- Python truthiness of a JSON-decoded value (`if event.get(k)` and the
chained `or` in `ingest_raw` use it): `None`, `False`, `0`, empty string,
empty list and empty dict are falsy. -/
def pyTruthy : JsonVal → Bool
  | .null => false
  | .bool b => b
  | .int n => n != 0
  | .str s => s != ""
  | .arr xs => !xs.isEmpty
  | .obj fs => !fs.isEmpty

/-- Truthiness of an optional value (`event.get(k)` may return `None`). -/
def pyTruthyOpt : Option JsonVal → Bool
  | none => false
  | some v => pyTruthy v

/-- Python `x or y`: `x` if truthy, else `y`. -/
def pyOr (a b : Option JsonVal) : Option JsonVal :=
  if pyTruthyOpt a then a else b

/-- Python `str.strip` whitespace set (space, tab, newline, carriage
return, vertical tab, form feed). -/
def pyIsSpace (c : Char) : Bool :=
  c = ' ' || c = '\t' || c = '\n' || c = '\r' || c = '\x0b' || c = '\x0c'

/-- Python `str.strip()`: drop leading and trailing whitespace. -/
def pyStrip (s : String) : String :=
  ⟨((s.toList.dropWhile pyIsSpace).reverse.dropWhile pyIsSpace).reverse⟩

/-- Python `str.lower()` (ASCII range, the range every admitted
`event_type` in the claims uses). -/
def pyToLower (s : String) : String :=
  ⟨s.toList.map Char.toLower⟩

mutual

/-- Python `repr` of a JSON-decoded value, used by `str` on containers.
Strings are single-quoted; exact container punctuation is immaterial to
every claim (no claim applies `str` to a container). -/
def pyRepr : JsonVal → String
  | .null => "None"
  | .bool true => "True"
  | .bool false => "False"
  | .int n => toString n
  | .str s => "\x27" ++ s ++ "\x27"
  | .arr xs => "[" ++ pyReprList xs ++ "]"
  | .obj fs => "\x7b" ++ pyReprFields fs ++ "\x7d"

/-- Comma-separated reprs of list elements. -/
def pyReprList : List JsonVal → String
  | [] => ""
  | [x] => pyRepr x
  | x :: xs => pyRepr x ++ ", " ++ pyReprList xs

/-- Comma-separated reprs of dict entries. -/
def pyReprFields : List (String × JsonVal) → String
  | [] => ""
  | [kv] => "\x27" ++ kv.1 ++ "\x27: " ++ pyRepr kv.2
  | kv :: fs => "\x27" ++ kv.1 ++ "\x27: " ++ pyRepr kv.2 ++ ", " ++ pyReprFields fs

end

/-- Python `str(v)` for a JSON-decoded value: strings pass through
unchanged, `None`/`True`/`False`/numbers print the Python way, containers
print their repr. -/
def pyStr : JsonVal → String
  | .str s => s
  | .null => "None"
  | .bool true => "True"
  | .bool false => "False"
  | .int n => toString n
  | .arr xs => pyRepr (.arr xs)
  | .obj fs => pyRepr (.obj fs)

/-- `to_str` from the source: `None` stays `None` (a missing key or a JSON
null both arrive as Python `None`), otherwise `str(v).strip()`, with an
empty result mapped to `None`. -/
def to_str : Option JsonVal → Option String
  | none => none
  | some .null => none
  | some v =>
    let s := pyStrip (pyStr v)
    if s = "" then none else some s

/-- `parse_timestamp_candidates` from the source: scan the alias list
`timestamp`, `event_timestamp`, `ts`, `time` and return `str(event[k])`
for the first `k` whose value is truthy (`if event.get(k)`); `None` if no
alias has a truthy value. -/
def parse_timestamp_candidates (ev : Record) : Option String :=
  match (["timestamp", "event_timestamp", "ts", "time"].find?
          (fun k => pyTruthyOpt (pyGet ev k))) with
  | some k => (pyGet ev k).map pyStr
  | none => none

/-! ### SQL values and the SQLite helpers the pipeline's SQL relies on -/

/-- A scalar SQL value as it lands in a table cell. -/
inductive SqlV where
  | null
  | int (n : Int)
  | text (s : String)
deriving Repr, DecidableEq

mutual

/-- Minimal JSON text rendering, used only when `json_extract` returns a
whole sub-object or sub-array (SQLite then yields its JSON text). -/
def jsonSer : JsonVal → String
  | .null => "null"
  | .bool true => "true"
  | .bool false => "false"
  | .int n => toString n
  | .str s => "\"" ++ s ++ "\""
  | .arr xs => "[" ++ jsonSerList xs ++ "]"
  | .obj fs => "\x7b" ++ jsonSerFields fs ++ "\x7d"

/-- Comma-separated serialization of array elements. -/
def jsonSerList : List JsonVal → String
  | [] => ""
  | [x] => jsonSer x
  | x :: xs => jsonSer x ++ "," ++ jsonSerList xs

/-- Comma-separated serialization of object entries. -/
def jsonSerFields : List (String × JsonVal) → String
  | [] => ""
  | [kv] => "\"" ++ kv.1 ++ "\":" ++ jsonSer kv.2
  | kv :: fs => "\"" ++ kv.1 ++ "\":" ++ jsonSer kv.2 ++ "," ++ jsonSerFields fs

end

/-- Walk a `$.a.b` JSON path (a chain of object keys) through a JSON
value; `none` means the path is absent. -/
def jsonPath : JsonVal → List String → Option JsonVal
  | v, [] => some v
  | .obj fs, k :: ks =>
    match (fs.find? (fun kv => kv.1 == k)).map (·.2) with
    | some w => jsonPath w ks
    | none => none
  | _, _ :: _ => none

/-- SQLite `json_extract(doc, path)` as an SQL value: an absent path and a
JSON null both give SQL NULL, strings give text, numbers give integers,
booleans give 0/1, and sub-objects/arrays give their JSON text. -/
def json_extract (doc : JsonVal) (path : List String) : SqlV :=
  match jsonPath doc path with
  | none => .null
  | some .null => .null
  | some (.str s) => .text s
  | some (.int n) => .int n
  | some (.bool b) => .int (if b then 1 else 0)
  | some (.arr xs) => .text (jsonSer (.arr xs))
  | some (.obj fs) => .text (jsonSer (.obj fs))

/-- SQL `COALESCE`: the first non-NULL value, else NULL. -/
def sqlCoalesce : List SqlV → SqlV
  | [] => .null
  | .null :: rest => sqlCoalesce rest
  | v :: _ => v

/-- TEXT column affinity: integers are stored as their decimal text. -/
def textAffinity : SqlV → SqlV
  | .int n => .text (toString n)
  | v => v

/-- Parse a string that is exactly an optionally-signed decimal integer. -/
def parseIntText (s : String) : Option Int :=
  match s.toList with
  | '-' :: ds => if ds ≠ [] ∧ ds.all Char.isDigit then
      some (-(Int.ofNat (ds.foldl (fun a c => a * 10 + (c.toNat - 48)) 0))) else none
  | ds => if ds ≠ [] ∧ ds.all Char.isDigit then
      some (Int.ofNat (ds.foldl (fun a c => a * 10 + (c.toNat - 48)) 0)) else none

/-- INTEGER column affinity: text that is exactly a decimal integer is
stored as that integer (the lossless-conversion rule restricted to
integer-shaped text, the only shape the pipeline feeds it). -/
def intAffinity : SqlV → SqlV
  | .text s => match parseIntText s with
    | some n => .int n
    | none => .text s
  | v => v

/-- SQL MIN aggregate over nullable TEXT: NULLs are ignored, NULL when no
non-NULL input; comparison is byte order, which on UTF-8 agrees with
Lean's string order. -/
def sqlMinStr (xs : List (Option String)) : Option String :=
  xs.foldl (fun acc x =>
    match acc, x with
    | none, x => x
    | acc, none => acc
    | some a, some b => some (if b < a then b else a)) none

/-- SQL MAX aggregate over nullable TEXT, NULL-ignoring. -/
def sqlMaxStr (xs : List (Option String)) : Option String :=
  xs.foldl (fun acc x =>
    match acc, x with
    | none, x => x
    | acc, none => acc
    | some a, some b => some (if a < b then b else a)) none

/-! ### Table rows -/

/-- A row of `raw_events`.  `raw_json` carries the parsed record itself:
the source stores `json.dumps(ev)` and every later use is `json_extract`
on that text, so the value is the faithful carrier. -/
structure RawRow where
  event_id : String
  event_type : Option String
  event_ts : Option String
  user_id : Option String
  document_id : Option String
  source_file : String
  raw_json : JsonVal
deriving Repr

/-- A row of `users`. -/
structure UserRow where
  user_id : String
  first_seen_ts : Option String
  last_seen_ts : Option String
deriving Repr, DecidableEq

/-- A row of `documents`. -/
structure DocRow where
  document_id : String
  title : SqlV
  owner_user_id : SqlV
  created_ts : Option String
  last_seen_ts : Option String
deriving Repr, DecidableEq

/-- A row of `events`.  The AUTOINCREMENT surrogate `event_pk` is the list
position; all logic is keyed on the UNIQUE `event_id`. -/
structure EventRow where
  event_id : String
  event_type : String
  event_ts : Option String
  user_id : Option String
  document_id : Option String
  day_of_week : Option String
  comment_text : SqlV
  shared_with_user_id : SqlV
  edit_chars_delta : SqlV
  raw_json : JsonVal
deriving Repr

/-- The four tables of the store. -/
structure DB where
  raw_events : List RawRow
  users : List UserRow
  documents : List DocRow
  events : List EventRow
deriving Repr

/-- `INSERT OR IGNORE` keyed by `key`: append the row unless a row with
the same key already exists. -/
def insertOrIgnoreBy {ρ : Type} (key : ρ → String) (t : List ρ) (r : ρ) : List ρ :=
  if t.any (fun x => key x == key r) then t else t ++ [r]

/-- Fold a list of items into a table, inserting the built row (if the
builder yields one) with `INSERT OR IGNORE` semantics. -/
def upsertFold {ρ α : Type} (key : ρ → String) (mk : α → Option ρ)
    (t : List ρ) (l : List α) : List ρ :=
  l.foldl (fun acc a =>
    match mk a with
    | none => acc
    | some r => insertOrIgnoreBy key acc r) t

/-- Distinct (first occurrence order) values of a nullable column.  The
row order SQLite emits for `GROUP BY` keys is engine-internal; every use
below is insensitive to it because rows are keyed. -/
def distinctKeysAux (f : RawRow → Option String) : List RawRow → List String → List String
  | [], _ => []
  | r :: rest, seen =>
    match f r with
    | none => distinctKeysAux f rest seen
    | some k =>
      if k ∈ seen then distinctKeysAux f rest seen
      else k :: distinctKeysAux f rest (k :: seen)

/-- Distinct non-null values of a nullable `raw_events` column. -/
def distinctKeys (f : RawRow → Option String) (raw : List RawRow) : List String :=
  distinctKeysAux f raw []

/-! ### Checkpoint store -/

/-- Checkpoint file content, as the character sequence on disk. -/
abbrev CheckpointFile := List Char

/-- `save_checkpoint`: append `p + "\n"` for each processed path. -/
def save_checkpoint (chk : CheckpointFile) (processed_paths : List String) : CheckpointFile :=
  processed_paths.foldl (fun c p => c ++ p.toList ++ ['\n']) chk

/-- The line-boundary characters of Python `str.splitlines`: newline,
carriage return, vertical tab, form feed, the file/group/record
separators, NEL, LINE SEPARATOR and PARAGRAPH SEPARATOR. -/
def pyIsLineBreak (c : Char) : Bool :=
  c = '\n' || c = '\r' || c = '\x0b' || c = '\x0c' ||
  c = '\x1c' || c = '\x1d' || c = '\x1e' || c = '\x85' ||
  c = '\u2028' || c = '\u2029'

/-- The universal-newline translation `Path.read_text` applies when
decoding (default `newline=None`): each `\r\n` pair and each lone `\r`
becomes `\n`. -/
def universalNewlines : List Char → List Char
  | [] => []
  | '\r' :: '\n' :: rest => '\n' :: universalNewlines rest
  | '\r' :: rest => '\n' :: universalNewlines rest
  | c :: rest => c :: universalNewlines rest

/-- Python `str.splitlines` on carriage-return-free text: split at every
line-boundary character, no trailing empty segment after a final
boundary.  (`splitlines` additionally treats an adjacent `\r\n` pair as
one boundary, but `load_checkpoint` only ever applies this after
`universalNewlines`, whose output contains no `\r` — see `UN_no_cr` — so
on that domain this is exactly `str.splitlines`.) -/
def pySplitlinesAux : List Char → List Char → List (List Char)
  | [], acc => if acc.isEmpty then [] else [acc.reverse]
  | c :: rest, acc =>
    if pyIsLineBreak c then acc.reverse :: pySplitlinesAux rest []
    else pySplitlinesAux rest (c :: acc)

/-- `load_checkpoint`: the set of lines of the checkpoint file (an absent
file is the empty content), as the source computes it —
`read_text` (universal-newline decoding) followed by `splitlines`. -/
def load_checkpoint (chk : CheckpointFile) : List (List Char) :=
  pySplitlinesAux (universalNewlines chk) []

/-- `find_new_files` over an already-enumerated sorted file list: keep the
files whose resolved path is not a checkpointed line. -/
def find_new_files (chk : CheckpointFile) (resolve : String → String)
    (all_files : List String) : List String :=
  all_files.filter (fun p => !(decide ((resolve p).toList ∈ load_checkpoint chk)))

/-! ### Event reader -/

/-- Is this JSON value a dict, and with which fields? -/
def asObj : JsonVal → Option Record
  | .obj fs => some fs
  | _ => none

/-- `read_event_file` from the source.  `readResult` is the outcome of
`path.read_text` (`Except.error` models an `OSError`); `jsonLoads` models
the `json.loads` library parser, `none` standing for a
`json.JSONDecodeError`.  Only the decode error is caught; a read error
propagates. -/
def read_event_file (jsonLoads : String → Option JsonVal)
    (readResult : Except String String) : Except String (List Record) :=
  match readResult with
  | .error e => .error e
  | .ok raw =>
    let txt := pyStrip raw
    if txt = "" then .ok []
    else
      match jsonLoads txt with
      | none => .ok []
      | some (.obj fs) => .ok [fs]
      | some (.arr xs) => .ok (xs.filterMap asObj)
      | some _ => .ok []

/-! ### Raw ingestion -/

/-- Per-file observability counters from `ingest_raw`.  `inserted` counts
executed insert statements (the source increments it even when the
`INSERT OR IGNORE` is absorbed by an existing `event_id`). -/
structure Counters where
  inserted : Nat
  skipped_missing_id : Nat
  skipped_missing_type : Nat
deriving Repr, DecidableEq

/-- The zero counters a file starts with. -/
def initCounters : Counters := ⟨0, 0, 0⟩

/-- The raw row built for an admitted record. -/
def mkRawRow (source_file : String) (ev : Record) (event_id ty : String) : RawRow :=
  { event_id := event_id
    event_type := some (pyToLower (pyStrip ty))
    event_ts := parse_timestamp_candidates ev
    user_id := to_str (pyOr (pyGet ev "user_id") (pyOr (pyGet ev "userId") (pyGet ev "uid")))
    document_id := to_str (pyOr (pyGet ev "document_id")
      (pyOr (pyGet ev "documentId") (pyGet ev "doc_id")))
    source_file := source_file
    raw_json := .obj ev }

/-- The per-record body of `ingest_raw`'s loop: admission checks, counter
updates, and the keyed insert. -/
def processRecord (source_file : String) (st : List RawRow × Counters)
    (ev : Record) : List RawRow × Counters :=
  match to_str (pyGet ev "event_id") with
  | none => (st.1, { st.2 with skipped_missing_id := st.2.skipped_missing_id + 1 })
  | some event_id =>
    match to_str (pyGet ev "event_type") with
    | none => (st.1, { st.2 with skipped_missing_type := st.2.skipped_missing_type + 1 })
    | some ty =>
      (insertOrIgnoreBy (·.event_id) st.1 (mkRawRow source_file ev event_id ty),
       { st.2 with inserted := st.2.inserted + 1 })

/-- `ingest_raw` over a list of new files.  `fs` maps a path to the
outcome of reading it; `resolve` models `Path.resolve` (the stored
`source_file` and the returned processed list use the resolved path, the
read uses the given path).  A propagated read error aborts the whole
call. -/
def ingest_raw (jsonLoads : String → Option JsonVal)
    (fs : String → Except String String) (resolve : String → String)
    (t : List RawRow) : List String → Except String (List RawRow × List String)
  | [] => .ok (t, [])
  | f :: rest =>
    match read_event_file jsonLoads (fs f) with
    | .error e => .error e
    | .ok evs =>
      let t' := (evs.foldl (processRecord (resolve f)) (t, initCounters)).1
      match ingest_raw jsonLoads fs resolve t' rest with
      | .error e => .error e
      | .ok (tf, ps) => .ok (tf, resolve f :: ps)

/-! ### SQLite date parsing for `strftime` -/

/-- Two decimal digit characters to their value. -/
def twoDigits : Char → Char → Option Nat
  | a, b => if a.isDigit && b.isDigit then some ((a.toNat - 48) * 10 + (b.toNat - 48)) else none

/-- Validate the `HH:MM[:SS[.fff]]` time part of an ISO-8601 timestamp,
with SQLite's digit-count and range checks, followed by an optional
`Z` / `+HH:MM` / `-HH:MM` timezone suffix. -/
def validTimePart (cs : List Char) : Bool :=
  match cs with
  | h1 :: h2 :: ':' :: m1 :: m2 :: rest =>
    match twoDigits h1 h2, twoDigits m1 m2 with
    | some h, some m =>
      h ≤ 24 && m ≤ 59 &&
      (match rest with
       | [] => true
       | ['Z'] => true
       | ['+', a1, a2, ':', b1, b2] =>
         (twoDigits a1 a2).isSome && (twoDigits b1 b2).isSome
       | ['-', a1, a2, ':', b1, b2] =>
         (twoDigits a1 a2).isSome && (twoDigits b1 b2).isSome
       | ':' :: s1 :: s2 :: rest2 =>
         match twoDigits s1 s2 with
         | some s =>
           s ≤ 59 &&
           (match rest2 with
            | [] => true
            | ['Z'] => true
            | ['+', a1, a2, ':', b1, b2] =>
              (twoDigits a1 a2).isSome && (twoDigits b1 b2).isSome
            | ['-', a1, a2, ':', b1, b2] =>
              (twoDigits a1 a2).isSome && (twoDigits b1 b2).isSome
            | '.' :: frac => !frac.isEmpty && frac.all Char.isDigit
            | _ => false)
         | none => false
       | _ => false)
    | _, _ => false
  | _ => false

/-- Days since 1970-01-01 of a proleptic-Gregorian `(y, m, d)`; the
standard civil-date formula, which rolls an overlarge day-of-month over
into the next month exactly as SQLite's Julian-day arithmetic does. -/
def daysFromCivil (y m d : Int) : Int :=
  let y' : Int := if m ≤ 2 then y - 1 else y
  let era : Int := y' / 400
  let yoe : Int := y' - era * 400
  let mp : Int := if m > 2 then m - 3 else m + 9
  let doy : Int := (153 * mp + 2) / 5 + d - 1
  let doe : Int := yoe * 365 + yoe / 4 - yoe / 100 + doy
  era * 146097 + doe - 719468

/-- Day-of-week index, 0 = Sunday … 6 = Saturday, of a civil date
(1970-01-01 was a Thursday). -/
def weekdayIndex (y m d : Int) : Nat :=
  ((daysFromCivil y m d + 4) % 7).toNat

/-- SQLite `strftime('%w', ts)` on an ISO-8601 `YYYY-MM-DD[{T or space}HH:MM...]`
string: the weekday index as above, or `none` when the string does not
parse as a date-time (the model covers the ISO shapes the pipeline can
store; relative forms such as `now` and bare Julian-day numbers are
outside it). -/
def strftimeW (s : String) : Option Nat :=
  match s.toList with
  | y1 :: y2 :: y3 :: y4 :: '-' :: m1 :: m2 :: '-' :: d1 :: d2 :: rest =>
    if y1.isDigit && y2.isDigit && y3.isDigit && y4.isDigit then
      match twoDigits m1 m2, twoDigits d1 d2 with
      | some mo, some da =>
        if 1 ≤ mo ∧ mo ≤ 12 ∧ 1 ≤ da ∧ da ≤ 31 then
          let y : Nat := (((y1.toNat - 48) * 10 + (y2.toNat - 48)) * 10 +
            (y3.toNat - 48)) * 10 + (y4.toNat - 48)
          match rest with
          | [] => some (weekdayIndex y mo da)
          | 'T' :: t => if validTimePart t then some (weekdayIndex y mo da) else none
          | ' ' :: t => if validTimePart t then some (weekdayIndex y mo da) else none
          | _ => none
        else none
      | _, _ => none
    else none
  | _ => none

/-- `strftime('%w', x)` on a nullable argument: NULL in, NULL out. -/
def strftimeWOpt : Option String → Option Nat
  | none => none
  | some s => strftimeW s

/-- The `CASE strftime('%w', event_ts) WHEN '0' THEN 'Sunday' … END`
expression of `day_of_week_expr`; the CASE has no ELSE, so an
unparseable or NULL `event_ts` yields NULL. -/
def day_of_week_expr (event_ts : Option String) : Option String :=
  match strftimeWOpt event_ts with
  | some 0 => some "Sunday"
  | some 1 => some "Monday"
  | some 2 => some "Tuesday"
  | some 3 => some "Wednesday"
  | some 4 => some "Thursday"
  | some 5 => some "Friday"
  | some 6 => some "Saturday"
  | _ => none

/-! ### Normalization transforms -/

/-- The non-null user ids of `raw_events`, deduplicated. -/
def rawUserIds (raw : List RawRow) : List String :=
  distinctKeys (·.user_id) raw

/-- The non-null document ids of `raw_events`, deduplicated. -/
def rawDocIds (raw : List RawRow) : List String :=
  distinctKeys (·.document_id) raw

/-- The user row the `INSERT OR IGNORE … GROUP BY user_id` statement of
`transform_users` builds for one user id: MIN/MAX of `event_ts` over the
group (the aggregates skip NULLs). -/
def mkUserRow (raw : List RawRow) (uid : String) : UserRow :=
  let tss := (raw.filter (fun r => r.user_id == some uid)).map (·.event_ts)
  { user_id := uid, first_seen_ts := sqlMinStr tss, last_seen_ts := sqlMaxStr tss }

/-- The per-row refresh of `transform_users`' UPDATE: recompute both
seen-timestamps from the non-NULL `event_ts` of the user's raw rows, for
users that appear in `raw_events`. -/
def refreshUser (raw : List RawRow) (u : UserRow) : UserRow :=
  if u.user_id ∈ rawUserIds raw then
    let tss := ((raw.filter (fun r => r.user_id == some u.user_id)).map
      (·.event_ts)).filter (·.isSome)
    { u with first_seen_ts := sqlMinStr tss, last_seen_ts := sqlMaxStr tss }
  else u

/-- `transform_users`: insert-if-absent one row per distinct raw user id,
then unconditionally refresh the timestamp range of every user present in
`raw_events`. -/
def transform_users (raw : List RawRow) (users : List UserRow) : List UserRow :=
  (upsertFold (·.user_id) (fun uid => some (mkUserRow raw uid)) users (rawUserIds raw)).map
    (refreshUser raw)

/-- The ordered JSON-path candidate list for a document's `title`. -/
def titlePaths : List (List String) := [["document", "title"], ["title"]]

/-- The ordered JSON-path candidate list for a document's owner. -/
def ownerPaths : List (List String) :=
  [["document", "owner_user_id"], ["owner_user_id"], ["ownerUserId"]]

/-- The document row the grouped `INSERT OR IGNORE` of
`transform_documents` builds for one document id.  `title` and
`owner_user_id` are bare (non-aggregate) expressions in a `GROUP BY`
query with two min/max aggregates, so SQLite evaluates them on one
engine-chosen row of the group; `pick` models that choice (SQLite
documents it as arbitrary, currently the last row).  The COALESCE of
`json_extract` candidates is evaluated on that chosen row. -/
def mkDocRow (pick : List RawRow → Option RawRow) (raw : List RawRow)
    (did : String) : DocRow :=
  let grp := raw.filter (fun r => r.document_id == some did)
  let tss := grp.map (·.event_ts)
  match pick grp with
  | some r =>
    { document_id := did
      title := textAffinity (sqlCoalesce (titlePaths.map (json_extract r.raw_json)))
      owner_user_id := textAffinity (sqlCoalesce (ownerPaths.map (json_extract r.raw_json)))
      created_ts := sqlMinStr tss
      last_seen_ts := sqlMaxStr tss }
  | none =>
    { document_id := did, title := .null, owner_user_id := .null
      created_ts := sqlMinStr tss, last_seen_ts := sqlMaxStr tss }

/-- The per-row refresh of `transform_documents`' UPDATE: recompute
`last_seen_ts` from the non-NULL `event_ts` of the document's raw rows,
for documents that appear in `raw_events`. -/
def refreshDoc (raw : List RawRow) (d : DocRow) : DocRow :=
  if d.document_id ∈ rawDocIds raw then
    let tss := ((raw.filter (fun r => r.document_id == some d.document_id)).map
      (·.event_ts)).filter (·.isSome)
    { d with last_seen_ts := sqlMaxStr tss }
  else d

/-- `transform_documents`: insert-if-absent one row per distinct raw
document id (descriptive fields from the engine-chosen group row), then
refresh `last_seen_ts` of every document present in `raw_events`. -/
def transform_documents (pick : List RawRow → Option RawRow)
    (raw : List RawRow) (docs : List DocRow) : List DocRow :=
  (upsertFold (·.document_id) (fun did => some (mkDocRow pick raw did)) docs
    (rawDocIds raw)).map (refreshDoc raw)

/-- The ordered JSON-path candidates for `comment_text`. -/
def commentPaths : List (List String) := [["comment", "text"], ["comment_text"]]

/-- The ordered JSON-path candidates for `shared_with_user_id`. -/
def sharedPaths : List (List String) := [["shared_with_user_id"], ["sharedWithUserId"]]

/-- The ordered JSON-path candidates for `edit_chars_delta`. -/
def editPaths : List (List String) := [["edit", "chars_delta"], ["edit_chars_delta"]]

/-- The normalized event row `transform_events` builds from a raw row
with a non-NULL `event_type`. -/
def mkEventRow (r : RawRow) (ty : String) : EventRow :=
  { event_id := r.event_id
    event_type := ty
    event_ts := r.event_ts
    user_id := r.user_id
    document_id := r.document_id
    day_of_week := day_of_week_expr r.event_ts
    comment_text := textAffinity (sqlCoalesce (commentPaths.map (json_extract r.raw_json)))
    shared_with_user_id := textAffinity (sqlCoalesce (sharedPaths.map (json_extract r.raw_json)))
    edit_chars_delta := intAffinity (sqlCoalesce (editPaths.map (json_extract r.raw_json)))
    raw_json := r.raw_json }

/-- `transform_events`: scan `raw_events`, and for each row with a
non-NULL `event_type` insert-if-absent (on the UNIQUE `event_id`) the
flattened row with its derived fields. -/
def transform_events (raw : List RawRow) (events : List EventRow) : List EventRow :=
  upsertFold (·.event_id) (fun r => r.event_type.map (mkEventRow r)) events raw

/-- `run_transformations`: the three derivation passes in source order. -/
def run_transformations (pick : List RawRow → Option RawRow) (db : DB) : DB :=
  { db with
    users := transform_users db.raw_events db.users
    documents := transform_documents pick db.raw_events db.documents
    events := transform_events db.raw_events db.events }

/-! ### Pipeline runs -/

/-- Durable state outside a transaction: the committed database and the
checkpoint file. -/
structure PState where
  db : DB
  checkpoint : CheckpointFile

/-- `main()` from `pipeline_ingest.py`, given the discovered new-file
list: one explicit transaction around ingestion and normalization, a
rollback (discarding every uncommitted change) and re-raise on any
exception, and a checkpoint append only after the commit.  `normFails`
injects the spec's simulated normalization failure after ingestion has
inserted rows but before commit.  The second component is the raised
exception, if any. -/
def main_run (jsonLoads : String → Option JsonVal) (pick : List RawRow → Option RawRow)
    (fs : String → Except String String) (resolve : String → String)
    (new_files : List String) (normFails : Bool) (st : PState) :
    PState × Option String :=
  match ingest_raw jsonLoads fs resolve st.db.raw_events new_files with
  | .error e => (st, some e)
  | .ok (raw', processed) =>
    if normFails then (st, some "simulated transform failure")
    else
      let db' := run_transformations pick { st.db with raw_events := raw' }
      ({ db := db', checkpoint := save_checkpoint st.checkpoint processed }, none)

/-- The Airflow step DAG (`analytics_pipeline_steps.py`): `task_ingest_raw`
commits the raw ingestion in its own transaction and pushes the processed
list; `task_transform` runs normalization in a second transaction;
`task_checkpoint` appends only after both succeeded.  A failure in a task
aborts the sequence (later tasks do not run). -/
def dag_run (jsonLoads : String → Option JsonVal) (pick : List RawRow → Option RawRow)
    (fs : String → Except String String) (resolve : String → String)
    (new_files : List String) (normFails : Bool) (st : PState) :
    PState × Option String :=
  match ingest_raw jsonLoads fs resolve st.db.raw_events new_files with
  | .error e => (st, some e)
  | .ok (raw', processed) =>
    let st1 : PState := { st with db := { st.db with raw_events := raw' } }
    if normFails then (st1, some "simulated transform failure")
    else
      let st2 : PState := { st1 with db := run_transformations pick st1.db }
      ({ st2 with checkpoint := save_checkpoint st2.checkpoint processed }, none)

/-! ### Auxiliary definitions used in claim statements -/

/-- The admission decision of one `ingest_raw` loop iteration as a row
builder: `none` when the record is skipped, otherwise the raw row it
inserts. -/
def admitRow (source_file : String) (ev : Record) : Option RawRow :=
  match to_str (pyGet ev "event_id") with
  | none => none
  | some event_id =>
    match to_str (pyGet ev "event_type") with
    | none => none
    | some ty => some (mkRawRow source_file ev event_id ty)

/-- The weekday names indexed 0 = Sunday … 6 = Saturday. -/
def weekNames : List String :=
  ["Sunday", "Monday", "Tuesday", "Wednesday", "Thursday", "Friday", "Saturday"]

/-- The group-representative choice current SQLite makes for bare columns
in a grouped aggregate query with more than one min/max aggregate: the
last row of the group in scan order. -/
def pickLast (l : List RawRow) : Option RawRow := l.getLast?

/-- Modelled from the spec's amended reading of timestamp extraction: the
first alias field whose value is truthy, stringified; null when no alias
holds a truthy value. -/
def timestampFirstTruthy (ev : Record) : Option String :=
  match (["timestamp", "event_timestamp", "ts", "time"].filter
          (fun k => pyTruthyOpt (pyGet ev k))) with
  | [] => none
  | k :: _ => (pyGet ev k).map pyStr

/-- A concrete `json.loads` instance: one known payload text parses to a
two-field record, everything else is a decode error. -/
def cexJsonLoads (s : String) : Option JsonVal :=
  if s = "payload1" then
    some (.obj [("event_id", .str "e1"), ("event_type", .str "T")])
  else none

/-- A concrete filesystem: every path reads as the known payload text. -/
def cexFs (_p : String) : Except String String := .ok "payload1"

/-- The empty durable state. -/
def cexSt0 : PState :=
  { db := { raw_events := [], users := [], documents := [], events := [] }, checkpoint := [] }

/-- The raw table after ingesting the known payload once. -/
def c3Tbl : List RawRow :=
  [mkRawRow "f" [("event_id", .str "e1"), ("event_type", .str "T")] "e1" "T"]

/-- The spec's derived-field scenario record. -/
def c8Record : Record :=
  [("event_id", .str "e1"), ("event_type", .str "Comment"),
   ("timestamp", .str "2024-03-04T10:00:00"), ("user_id", .str "u1"),
   ("document_id", .str "d1"), ("comment", .obj [("text", .str "hi")])]

/-- The raw table holding the ingested scenario record. -/
def c8Raw : List RawRow := (processRecord "f" ([], initCounters) c8Record).1

/-- Two raw rows sharing document `d1`: the first carries a title in its
payload, the second does not. -/
def c5Raw : List RawRow :=
  [{ event_id := "e1", event_type := some "x", event_ts := none, user_id := none,
     document_id := some "d1", source_file := "f", raw_json := .obj [("title", .str "T")] },
   { event_id := "e2", event_type := some "x", event_ts := none, user_id := none,
     document_id := some "d1", source_file := "f", raw_json := .obj [] }]

/-- The record exhibiting a present-but-empty first timestamp alias. -/
def c6Record : Record := [("timestamp", .str ""), ("ts", .str "X")]

/-- A concrete parser instance covering the four top-level JSON shapes. -/
def c9Loads (s : String) : Option JsonVal :=
  if s = "O" then some (.obj [("a", .null)])
  else if s = "A" then some (.arr [.obj [], .int 3])
  else if s = "B" then some (.int 5)
  else none

end Pipeline


namespace Pipeline

/-! ## Helper lemmas: keyed insert-if-absent folds -/

section UpsertLemmas

variable {ρ α : Type} (key : ρ → String) {mk : α → Option ρ}

theorem insertOrIgnoreBy_of_mem {t : List ρ} {r : ρ}
    (h : key r ∈ t.map key) : insertOrIgnoreBy key t r = t := by
  unfold insertOrIgnoreBy
  rw [if_pos]
  rw [List.any_eq_true]
  rcases List.mem_map.mp h with ⟨x, hx, hk⟩
  exact ⟨x, hx, by simp [hk]⟩

theorem insertOrIgnoreBy_of_not_mem {t : List ρ} {r : ρ}
    (h : key r ∉ t.map key) : insertOrIgnoreBy key t r = t ++ [r] := by
  unfold insertOrIgnoreBy
  rw [if_neg]
  intro hc
  rcases List.any_eq_true.mp hc with ⟨x, hx, hk⟩
  exact h (List.mem_map.mpr ⟨x, hx, by simpa using hk⟩)

theorem mem_keys_insertOrIgnoreBy {t : List ρ} {r : ρ} {x : String}
    (h : x ∈ t.map key) : x ∈ (insertOrIgnoreBy key t r).map key := by
  unfold insertOrIgnoreBy
  split
  · exact h
  · simpa using Or.inl h

theorem self_mem_keys_insertOrIgnoreBy (t : List ρ) (r : ρ) :
    key r ∈ (insertOrIgnoreBy key t r).map key := by
  unfold insertOrIgnoreBy
  split
  · rename_i h
    rcases List.any_eq_true.mp h with ⟨x, hx, hk⟩
    exact List.mem_map.mpr ⟨x, hx, by simpa using hk⟩
  · simp

theorem upsertFold_nil (t : List ρ) : upsertFold key mk t [] = t := rfl

theorem upsertFold_cons_none {a : α} {l : List α} (t : List ρ) (h : mk a = none) :
    upsertFold key mk t (a :: l) = upsertFold key mk t l := by
  simp only [upsertFold, List.foldl_cons, h]

theorem upsertFold_cons_some {a : α} {l : List α} {r : ρ} (t : List ρ) (h : mk a = some r) :
    upsertFold key mk t (a :: l) = upsertFold key mk (insertOrIgnoreBy key t r) l := by
  simp only [upsertFold, List.foldl_cons, h]

theorem upsertFold_keys_mono {l : List α} {t : List ρ} {x : String}
    (h : x ∈ t.map key) : x ∈ (upsertFold key mk t l).map key := by
  induction l generalizing t with
  | nil => simpa [upsertFold_nil] using h
  | cons a rest ih =>
    cases hmk : mk a with
    | none => rw [upsertFold_cons_none key t hmk]; exact ih h
    | some r =>
      rw [upsertFold_cons_some key t hmk]
      exact ih (mem_keys_insertOrIgnoreBy key h)

theorem upsertFold_key_mem {l : List α} {t : List ρ} {a : α} {r : ρ}
    (ha : a ∈ l) (hmk : mk a = some r) :
    key r ∈ (upsertFold key mk t l).map key := by
  induction l generalizing t with
  | nil => cases ha
  | cons b rest ih =>
    rcases List.mem_cons.mp ha with rfl | hmem
    · rw [upsertFold_cons_some key t hmk]
      exact upsertFold_keys_mono key (self_mem_keys_insertOrIgnoreBy key t r)
    · cases hmk2 : mk b with
      | none => rw [upsertFold_cons_none key t hmk2]; exact ih hmem
      | some r2 => rw [upsertFold_cons_some key t hmk2]; exact ih hmem

theorem upsertFold_noop {l : List α} {t : List ρ}
    (h : ∀ a ∈ l, ∀ r, mk a = some r → key r ∈ t.map key) :
    upsertFold key mk t l = t := by
  induction l with
  | nil => rfl
  | cons a rest ih =>
    cases hmk : mk a with
    | none =>
      rw [upsertFold_cons_none key t hmk]
      exact ih (fun b hb r hr => h b (List.mem_cons_of_mem a hb) r hr)
    | some r =>
      rw [upsertFold_cons_some key t hmk,
        insertOrIgnoreBy_of_mem key (h a (List.mem_cons_self a rest) r hmk)]
      exact ih (fun b hb r2 hr => h b (List.mem_cons_of_mem a hb) r2 hr)

theorem find?_upsertFold_of_ne {l : List α} {t : List ρ} {k : String}
    (h : ∀ a ∈ l, ∀ r, mk a = some r → key r ≠ k) :
    (upsertFold key mk t l).find? (fun x => key x == k) = t.find? (fun x => key x == k) := by
  induction l generalizing t with
  | nil => rfl
  | cons a rest ih =>
    cases hmk : mk a with
    | none =>
      rw [upsertFold_cons_none key t hmk]
      exact ih (fun b hb r hr => h b (List.mem_cons_of_mem a hb) r hr)
    | some r =>
      rw [upsertFold_cons_some key t hmk,
        ih (fun b hb r2 hr => h b (List.mem_cons_of_mem a hb) r2 hr)]
      unfold insertOrIgnoreBy
      split
      · rfl
      · rw [List.find?_append]
        have hne : (key r == k) = false :=
          beq_eq_false_iff_ne.mpr (h a (List.mem_cons_self a rest) r hmk)
        simp [List.find?, hne]

theorem find?_map_key_preserving {g : ρ → ρ} {l : List ρ} {k : String}
    (hg : ∀ x, key (g x) = key x) :
    (l.map g).find? (fun x => key x == k) = (l.find? (fun x => key x == k)).map g := by
  induction l with
  | nil => rfl
  | cons x rest ih =>
    simp only [List.map_cons, List.find?_cons, hg x]
    cases h : (key x == k) with
    | true => rfl
    | false => exact ih

end UpsertLemmas

/-! ## Helper lemmas: distinct key extraction -/

theorem distinctKeysAux_cons_none {f : RawRow → Option String} {r : RawRow}
    {rest : List RawRow} {seen : List String} (h : f r = none) :
    distinctKeysAux f (r :: rest) seen = distinctKeysAux f rest seen := by
  simp only [distinctKeysAux, h]

theorem distinctKeysAux_cons_some_mem {f : RawRow → Option String} {r : RawRow}
    {rest : List RawRow} {seen : List String} {k0 : String}
    (h : f r = some k0) (hs : k0 ∈ seen) :
    distinctKeysAux f (r :: rest) seen = distinctKeysAux f rest seen := by
  simp only [distinctKeysAux, h]
  rw [if_pos hs]

theorem distinctKeysAux_cons_some_not_mem {f : RawRow → Option String} {r : RawRow}
    {rest : List RawRow} {seen : List String} {k0 : String}
    (h : f r = some k0) (hs : k0 ∉ seen) :
    distinctKeysAux f (r :: rest) seen = k0 :: distinctKeysAux f rest (k0 :: seen) := by
  simp only [distinctKeysAux, h]
  rw [if_neg hs]

theorem mem_distinctKeysAux {f : RawRow → Option String} {raw : List RawRow}
    {seen : List String} {k : String} :
    k ∈ distinctKeysAux f raw seen ↔ (∃ r ∈ raw, f r = some k) ∧ k ∉ seen := by
  induction raw generalizing seen with
  | nil => simp [distinctKeysAux]
  | cons r rest ih =>
    cases hf : f r with
    | none =>
      rw [distinctKeysAux_cons_none hf, ih]
      constructor
      · rintro ⟨⟨x, hx, hk⟩, hs⟩
        exact ⟨⟨x, List.mem_cons_of_mem r hx, hk⟩, hs⟩
      · rintro ⟨⟨x, hx, hk⟩, hs⟩
        rcases List.mem_cons.mp hx with rfl | hx2
        · rw [hf] at hk; cases hk
        · exact ⟨⟨x, hx2, hk⟩, hs⟩
    | some k0 =>
      by_cases hseen : k0 ∈ seen
      · rw [distinctKeysAux_cons_some_mem hf hseen, ih]
        constructor
        · rintro ⟨⟨x, hx, hk⟩, hs⟩
          exact ⟨⟨x, List.mem_cons_of_mem r hx, hk⟩, hs⟩
        · rintro ⟨⟨x, hx, hk⟩, hs⟩
          rcases List.mem_cons.mp hx with rfl | hx2
          · rw [hf] at hk
            cases hk
            exact absurd hseen hs
          · exact ⟨⟨x, hx2, hk⟩, hs⟩
      · rw [distinctKeysAux_cons_some_not_mem hf hseen]
        constructor
        · intro hmem
          rcases List.mem_cons.mp hmem with rfl | hmem2
          · exact ⟨⟨r, List.mem_cons_self r rest, hf⟩, hseen⟩
          · rcases ih.mp hmem2 with ⟨⟨x, hx, hk⟩, hs⟩
            simp only [List.mem_cons] at hs
            push_neg at hs
            exact ⟨⟨x, List.mem_cons_of_mem r hx, hk⟩, hs.2⟩
        · rintro ⟨⟨x, hx, hk⟩, hs⟩
          rcases List.mem_cons.mp hx with rfl | hx2
          · rw [hf] at hk
            cases hk
            exact List.mem_cons_self _ _
          · by_cases hkk : k = k0
            · subst hkk
              exact List.mem_cons_self _ _
            · refine List.mem_cons_of_mem _ (ih.mpr ⟨⟨x, hx2, hk⟩, ?_⟩)
              simp only [List.mem_cons]
              push_neg
              exact ⟨hkk, hs⟩

theorem mem_distinctKeys {f : RawRow → Option String} {raw : List RawRow} {k : String} :
    k ∈ distinctKeys f raw ↔ ∃ r ∈ raw, f r = some k := by
  rw [distinctKeys, mem_distinctKeysAux]
  simp

theorem distinctKeysAux_nodup (f : RawRow → Option String) (raw : List RawRow)
    (seen : List String) : (distinctKeysAux f raw seen).Nodup := by
  induction raw generalizing seen with
  | nil => simp [distinctKeysAux]
  | cons r rest ih =>
    cases hf : f r with
    | none => rw [distinctKeysAux_cons_none hf]; exact ih seen
    | some k0 =>
      by_cases hseen : k0 ∈ seen
      · rw [distinctKeysAux_cons_some_mem hf hseen]; exact ih seen
      · rw [distinctKeysAux_cons_some_not_mem hf hseen]
        refine List.nodup_cons.mpr ⟨?_, ih (k0 :: seen)⟩
        intro hmem
        exact (mem_distinctKeysAux.mp hmem).2 (List.mem_cons_self k0 seen)

theorem distinctKeys_nodup (f : RawRow → Option String) (raw : List RawRow) :
    (distinctKeys f raw).Nodup := distinctKeysAux_nodup f raw []

end Pipeline

namespace Pipeline

/-! ## Claim theorems -/

/-- C9: for every file, `read_event_file` returns the empty sequence when
the trimmed content is empty; a one-element sequence when the content
parses as a single JSON object; the object elements (non-objects dropped)
when it parses as a JSON array; and the empty sequence when the content is
neither an object nor an array or fails to parse, without raising. -/
theorem C9_read_event_file_shapes (jl : String → Option JsonVal) (content : String) :
    (pyStrip content = "" → read_event_file jl (.ok content) = .ok []) ∧
    (∀ o, pyStrip content ≠ "" → jl (pyStrip content) = some (.obj o) →
      read_event_file jl (.ok content) = .ok [o]) ∧
    (∀ xs, pyStrip content ≠ "" → jl (pyStrip content) = some (.arr xs) →
      read_event_file jl (.ok content) = .ok (xs.filterMap asObj)) ∧
    (pyStrip content ≠ "" → jl (pyStrip content) = none →
      read_event_file jl (.ok content) = .ok []) ∧
    (∀ v, pyStrip content ≠ "" → jl (pyStrip content) = some v →
      (∀ o, v ≠ .obj o) → (∀ xs, v ≠ .arr xs) →
      read_event_file jl (.ok content) = .ok []) := by
  refine ⟨?_, ?_, ?_, ?_, ?_⟩
  · intro h
    simp [read_event_file, h]
  · intro o hne hjl
    simp [read_event_file, hne, hjl]
  · intro xs hne hjl
    simp [read_event_file, hne, hjl]
  · intro hne hjl
    simp [read_event_file, hne, hjl]
  · intro v hne hjl hobj harr
    cases v with
    | obj o => exact absurd rfl (hobj o)
    | arr xs => exact absurd rfl (harr xs)
    | null => simp [read_event_file, hne, hjl]
    | bool b => simp [read_event_file, hne, hjl]
    | int n => simp [read_event_file, hne, hjl]
    | str s => simp [read_event_file, hne, hjl]

/-- C9 witness: the five shapes at concrete contents under a concrete
parser. -/
theorem C9_witness :
    read_event_file c9Loads (.ok "  ") = .ok [] ∧
    read_event_file c9Loads (.ok " O") = .ok [[("a", JsonVal.null)]] ∧
    read_event_file c9Loads (.ok "A") = .ok [[]] ∧
    read_event_file c9Loads (.ok "Z") = .ok [] ∧
    read_event_file c9Loads (.ok "B") = .ok [] :=
  ⟨(C9_read_event_file_shapes c9Loads "  ").1 (by decide),
   (C9_read_event_file_shapes c9Loads " O").2.1 [("a", JsonVal.null)] (by decide) (by rfl),
   (C9_read_event_file_shapes c9Loads "A").2.2.1 [.obj [], .int 3] (by decide) (by rfl),
   (C9_read_event_file_shapes c9Loads "Z").2.2.2.1 (by decide) (by rfl),
   (C9_read_event_file_shapes c9Loads "B").2.2.2.2 (.int 5) (by decide) (by rfl)
     (fun o h => by cases h) (fun xs h => by cases h)⟩

/-- C10: `read_event_file` propagates a read error (only JSON decode
errors are caught), so one unreadable file aborts the whole `ingest_raw`
run, unlike a malformed-JSON file. -/
theorem C10_read_error_aborts :
    (∀ (jl : String → Option JsonVal) (e : String),
      read_event_file jl (.error e) = .error e) ∧
    (∀ (jl : String → Option JsonVal) (fsys : String → Except String String)
        (res : String → String) (t : List RawRow) (files : List String) (f e : String),
      f ∈ files → fsys f = .error e →
      ∃ e2, ingest_raw jl fsys res t files = .error e2) := by
  constructor
  · intro jl e
    rfl
  · intro jl fsys res t files f e hmem hfe
    induction files generalizing t with
    | nil => cases hmem
    | cons g rest ih =>
      rcases List.mem_cons.mp hmem with rfl | hf
      · refine ⟨e, ?_⟩
        simp [ingest_raw, hfe, read_event_file]
      · cases hr : read_event_file jl (fsys g) with
        | error e3 =>
          refine ⟨e3, ?_⟩
          simp [ingest_raw, hr]
        | ok evs =>
          obtain ⟨e2, h2⟩ := ih ((evs.foldl (processRecord (res g)) (t, initCounters)).1) hf
          refine ⟨e2, ?_⟩
          simp [ingest_raw, hr, h2]

/-- C10 witness: a concrete unreadable file aborts a concrete run. -/
theorem C10_witness :
    ∃ e2, ingest_raw c9Loads (fun _ => Except.error "io") id [] ["f"] = .error e2 :=
  C10_read_error_aborts.2 c9Loads (fun _ => Except.error "io") id [] ["f"] "f" "io"
    (List.mem_singleton.mpr rfl) rfl

/-- C6 counterexample: in the record `c6Record` the first alias field
`timestamp` is present (with the empty-string value), yet the extracted
timestamp is the stringification of the later alias `ts`, not of the first
present field. -/
theorem C6_counterexample :
    pyGet c6Record "timestamp" = some (.str "") ∧
    parse_timestamp_candidates c6Record = some "X" ∧
    some "X" ≠ some (pyStr (.str "")) :=
  ⟨rfl, rfl, by simp [pyStr]⟩

/-- C6 amended: the extracted event timestamp is the value of the first
alias field among `timestamp`, `event_timestamp`, `ts`, `time` whose value
is truthy (present and non-empty/non-zero/non-null), stringified as-is;
null when no alias holds a truthy value. -/
theorem C6_amended (ev : Record) :
    parse_timestamp_candidates ev = timestampFirstTruthy ev := by
  unfold parse_timestamp_candidates timestampFirstTruthy
  cases h1 : pyTruthyOpt (pyGet ev "timestamp") <;>
    cases h2 : pyTruthyOpt (pyGet ev "event_timestamp") <;>
      cases h3 : pyTruthyOpt (pyGet ev "ts") <;>
        cases h4 : pyTruthyOpt (pyGet ev "time") <;>
          simp [List.find?, List.filter, h1, h2, h3, h4]

/-- C7: a record whose `event_id` extraction fails (missing, empty, or
whitespace-only value) contributes no row and bumps the missing-id
counter; a record with an id but failing `event_type` extraction
contributes no row and bumps the missing-type counter; an admitted record
is inserted with `event_type` stored lower-cased.  The last three
conjuncts tie the extraction failure to the claim's wording: a missing
key, a JSON null, and an empty-after-strip string all extract to none. -/
theorem C7_admission (sf : String) (t : List RawRow) (c : Counters) (ev : Record) :
    (to_str (pyGet ev "event_id") = none →
      processRecord sf (t, c) ev =
        (t, { c with skipped_missing_id := c.skipped_missing_id + 1 })) ∧
    (∀ i, to_str (pyGet ev "event_id") = some i →
      to_str (pyGet ev "event_type") = none →
      processRecord sf (t, c) ev =
        (t, { c with skipped_missing_type := c.skipped_missing_type + 1 })) ∧
    (∀ i ty, to_str (pyGet ev "event_id") = some i →
      to_str (pyGet ev "event_type") = some ty →
      processRecord sf (t, c) ev =
        (insertOrIgnoreBy (fun r => r.event_id) t (mkRawRow sf ev i ty),
         { c with inserted := c.inserted + 1 }) ∧
      (mkRawRow sf ev i ty).event_type = some (pyToLower (pyStrip ty))) ∧
    (to_str none = none) ∧ (to_str (some .null) = none) ∧
    (∀ s : String, pyStrip s = "" → to_str (some (.str s)) = none) := by
  refine ⟨?_, ?_, ?_, rfl, rfl, ?_⟩
  · intro h
    simp [processRecord, h]
  · intro i hi h
    simp [processRecord, hi, h]
  · intro i ty hi hty
    exact ⟨by simp [processRecord, hi, hty], rfl⟩
  · intro s h
    simp [to_str, pyStr, h]

/-- C7 witness: the three admission outcomes at concrete records. -/
theorem C7_witness :
    processRecord "f" ([], initCounters) [] =
      ([], { inserted := 0, skipped_missing_id := 1, skipped_missing_type := 0 }) ∧
    processRecord "f" ([], initCounters) [("event_id", .str "e1"), ("event_type", .str "  ")] =
      ([], { inserted := 0, skipped_missing_id := 0, skipped_missing_type := 1 }) ∧
    processRecord "f" ([], initCounters) [("event_id", .str "e1"), ("event_type", .str "Comment")] =
      ([mkRawRow "f" [("event_id", .str "e1"), ("event_type", .str "Comment")] "e1" "Comment"],
       { inserted := 1, skipped_missing_id := 0, skipped_missing_type := 0 }) ∧
    (mkRawRow "f" [("event_id", .str "e1"), ("event_type", .str "Comment")]
      "e1" "Comment").event_type = some "comment" :=
  ⟨(C7_admission "f" [] initCounters []).1 rfl,
   (C7_admission "f" [] initCounters
      [("event_id", .str "e1"), ("event_type", .str "  ")]).2.1 "e1" rfl rfl,
   ((C7_admission "f" [] initCounters
      [("event_id", .str "e1"), ("event_type", .str "Comment")]).2.2.1 "e1" "Comment"
      rfl rfl).1,
   ((C7_admission "f" [] initCounters
      [("event_id", .str "e1"), ("event_type", .str "Comment")]).2.2.1 "e1" "Comment"
      rfl rfl).2⟩

/-- C1 counterexample: in the Airflow step DAG, raw ingestion commits in
its own transaction; with a simulated failure during the transform step,
the run raises, yet the raw table afterwards holds the row contributed by
the run (the checkpoint alone is unchanged).  The initial store is empty,
so every final row was contributed by this run. -/
theorem C1_counterexample :
    cexSt0.db.raw_events = [] ∧
    (dag_run cexJsonLoads pickLast cexFs id ["f"] true cexSt0).2 =
      some "simulated transform failure" ∧
    (dag_run cexJsonLoads pickLast cexFs id ["f"] true cexSt0).1.db.raw_events =
      [mkRawRow "f" [("event_id", JsonVal.str "e1"), ("event_type", JsonVal.str "T")]
        "e1" "T"] ∧
    (dag_run cexJsonLoads pickLast cexFs id ["f"] true cexSt0).1.checkpoint =
      cexSt0.checkpoint :=
  ⟨rfl, rfl, rfl, rfl⟩

/-- C1 amended: the single-process `main()` run is all-or-nothing — on any
exception raised during ingestion or normalization before commit the
durable state (raw table and checkpoint file) is exactly the pre-run
state; in the step DAG only the checkpoint is guaranteed unchanged after
such a failure, because ingestion commits separately. -/
theorem C1_amended :
    (∀ (jl : String → Option JsonVal) (pick : List RawRow → Option RawRow)
        (fsys : String → Except String String) (res : String → String)
        (files : List String) (nf : Bool) (st out : PState) (e : String),
      main_run jl pick fsys res files nf st = (out, some e) → out = st) ∧
    (∀ (jl : String → Option JsonVal) (pick : List RawRow → Option RawRow)
        (fsys : String → Except String String) (res : String → String)
        (files : List String) (nf : Bool) (st out : PState) (e : String),
      dag_run jl pick fsys res files nf st = (out, some e) →
      out.checkpoint = st.checkpoint) := by
  constructor
  · intro jl pick fsys res files nf st out e h
    rw [main_run] at h
    cases hing : ingest_raw jl fsys res st.db.raw_events files with
    | error e0 =>
      rw [hing] at h
      simp only [Prod.mk.injEq] at h
      exact h.1.symm
    | ok pr =>
      obtain ⟨raw2, processed⟩ := pr
      rw [hing] at h
      cases nf with
      | true =>
        simp only [if_true, Prod.mk.injEq] at h
        exact h.1.symm
      | false => simp at h
  · intro jl pick fsys res files nf st out e h
    rw [dag_run] at h
    cases hing : ingest_raw jl fsys res st.db.raw_events files with
    | error e0 =>
      rw [hing] at h
      simp only [Prod.mk.injEq] at h
      exact h.1 ▸ rfl
    | ok pr =>
      obtain ⟨raw2, processed⟩ := pr
      rw [hing] at h
      cases nf with
      | true =>
        simp only [if_true, Prod.mk.injEq] at h
        exact h.1 ▸ rfl
      | false => simp at h

/-- C1 witness: the amended guarantees at the concrete failing runs. -/
theorem C1_witness :
    (main_run cexJsonLoads pickLast cexFs id ["f"] true cexSt0).1 = cexSt0 ∧
    (dag_run cexJsonLoads pickLast cexFs id ["f"] true cexSt0).1.checkpoint =
      cexSt0.checkpoint :=
  ⟨C1_amended.1 cexJsonLoads pickLast cexFs id ["f"] true cexSt0 _
      "simulated transform failure" rfl,
   C1_amended.2 cexJsonLoads pickLast cexFs id ["f"] true cexSt0 _
      "simulated transform failure" rfl⟩

end Pipeline

namespace Pipeline

/-! ## C8: day-of-week derivation -/

theorem day_of_week_expr_eq_weekNames (ts : Option String) :
    day_of_week_expr ts = (strftimeWOpt ts).bind (fun i => weekNames.get? i) := by
  cases h : strftimeWOpt ts with
  | none => simp [day_of_week_expr, h]
  | some i =>
    simp only [day_of_week_expr, h, Option.some_bind]
    rcases i with _|_|_|_|_|_|_|j <;> simp [weekNames, List.get?]

/-- C8: every Event row built by `transform_events` carries
`day_of_week` equal to the weekday name at the `strftime` day index of
`event_ts` under the 0 = Sunday … 6 = Saturday naming, and no name (NULL)
when `event_ts` is null or unparseable; in particular the spec's scenario
record with `event_ts` 2024-03-04T10:00:00 normalizes to an Event row
with lower-cased `event_type` "comment", `day_of_week` "Monday" and
`comment_text` "hi". -/
theorem C8_day_of_week_and_scenario :
    (∀ (r : RawRow) (ty : String),
      (mkEventRow r ty).day_of_week =
        (strftimeWOpt r.event_ts).bind (fun i => weekNames.get? i)) ∧
    c8Raw.map (fun row => row.event_type) = [some "comment"] ∧
    (run_transformations pickLast
        { raw_events := c8Raw, users := [], documents := [], events := [] }).events.map
        (fun e => (e.event_type, e.day_of_week, e.comment_text)) =
      [("comment", some "Monday", SqlV.text "hi")] ∧
    day_of_week_expr none = none ∧
    day_of_week_expr (some "not a date") = none :=
  ⟨fun r _ty => day_of_week_expr_eq_weekNames r.event_ts, rfl, rfl, rfl, rfl⟩

/-! ## C3: idempotent re-ingestion -/

theorem ingest_raw_nil (jl : String → Option JsonVal)
    (fsys : String → Except String String) (res : String → String) (t : List RawRow) :
    ingest_raw jl fsys res t [] = .ok (t, []) := rfl

theorem ingest_raw_cons_err {jl : String → Option JsonVal}
    {fsys : String → Except String String} {res : String → String} {t : List RawRow}
    {f : String} {rest : List String} {e : String}
    (h : read_event_file jl (fsys f) = .error e) :
    ingest_raw jl fsys res t (f :: rest) = .error e := by
  simp [ingest_raw, h]

theorem ingest_raw_cons_ok {jl : String → Option JsonVal}
    {fsys : String → Except String String} {res : String → String} {t : List RawRow}
    {f : String} {rest : List String} {evs : List Record}
    (h : read_event_file jl (fsys f) = .ok evs) :
    ingest_raw jl fsys res t (f :: rest) =
      match ingest_raw jl fsys res
          ((evs.foldl (processRecord (res f)) (t, initCounters)).1) rest with
      | .error e => .error e
      | .ok (tf, ps) => .ok (tf, res f :: ps) := by
  simp [ingest_raw, h]

theorem foldProcess_eq_upsert (sf : String) (evs : List Record)
    (t : List RawRow) (c : Counters) :
    (evs.foldl (processRecord sf) (t, c)).1 =
      upsertFold (fun r => r.event_id) (admitRow sf) t evs := by
  induction evs generalizing t c with
  | nil => rfl
  | cons ev rest ih =>
    cases hid : to_str (pyGet ev "event_id") with
    | none =>
      have hp : processRecord sf (t, c) ev =
          (t, { c with skipped_missing_id := c.skipped_missing_id + 1 }) := by
        simp [processRecord, hid]
      have ha : admitRow sf ev = none := by simp [admitRow, hid]
      rw [List.foldl_cons, hp, upsertFold_cons_none (fun r => r.event_id) t ha]
      exact ih t _
    | some i =>
      cases hty : to_str (pyGet ev "event_type") with
      | none =>
        have hp : processRecord sf (t, c) ev =
            (t, { c with skipped_missing_type := c.skipped_missing_type + 1 }) := by
          simp [processRecord, hid, hty]
        have ha : admitRow sf ev = none := by simp [admitRow, hid, hty]
        rw [List.foldl_cons, hp, upsertFold_cons_none (fun r => r.event_id) t ha]
        exact ih t _
      | some ty =>
        have hp : processRecord sf (t, c) ev =
            (insertOrIgnoreBy (fun r => r.event_id) t (mkRawRow sf ev i ty),
             { c with inserted := c.inserted + 1 }) := by
          simp [processRecord, hid, hty]
        have ha : admitRow sf ev = some (mkRawRow sf ev i ty) := by
          simp [admitRow, hid, hty]
        rw [List.foldl_cons, hp, upsertFold_cons_some (fun r => r.event_id) t ha]
        exact ih _ _

theorem ingest_ok_spec {jl : String → Option JsonVal}
    {fsys : String → Except String String} {res : String → String}
    {t t1 : List RawRow} {files ps : List String}
    (h : ingest_raw jl fsys res t files = .ok (t1, ps)) :
    ps = files.map res ∧
    (∀ x, x ∈ t.map (fun r => r.event_id) → x ∈ t1.map (fun r => r.event_id)) ∧
    (∀ f ∈ files, ∃ evs, read_event_file jl (fsys f) = .ok evs ∧
      ∀ ev ∈ evs, ∀ row, admitRow (res f) ev = some row →
        row.event_id ∈ t1.map (fun r => r.event_id)) := by
  induction files generalizing t ps with
  | nil =>
    rw [ingest_raw_nil] at h
    simp only [Except.ok.injEq, Prod.mk.injEq] at h
    obtain ⟨rfl, rfl⟩ := h
    exact ⟨rfl, fun x hx => hx, fun f hf => absurd hf (List.not_mem_nil f)⟩
  | cons f rest ih =>
    cases hr : read_event_file jl (fsys f) with
    | error e =>
      rw [ingest_raw_cons_err hr] at h
      cases h
    | ok evs =>
      rw [ingest_raw_cons_ok hr] at h
      cases hrec : ingest_raw jl fsys res
          ((evs.foldl (processRecord (res f)) (t, initCounters)).1) rest with
      | error e =>
        rw [hrec] at h
        cases h
      | ok pr =>
        obtain ⟨tf, ps'⟩ := pr
        rw [hrec] at h
        simp only [Except.ok.injEq, Prod.mk.injEq] at h
        obtain ⟨rfl, rfl⟩ := h
        obtain ⟨hps, hmono, hfiles⟩ := ih hrec
        refine ⟨by rw [List.map_cons, hps], ?_, ?_⟩
        · intro x hx
          apply hmono
          rw [foldProcess_eq_upsert]
          exact upsertFold_keys_mono _ hx
        · intro g hg
          rcases List.mem_cons.mp hg with rfl | hg2
          · refine ⟨evs, hr, ?_⟩
            intro ev hev row hrow
            apply hmono
            rw [foldProcess_eq_upsert]
            exact upsertFold_key_mem _ hev hrow
          · exact hfiles g hg2

theorem ingest_noop {jl : String → Option JsonVal}
    {fsys : String → Except String String} {res : String → String}
    {t : List RawRow} {files : List String}
    (h : ∀ f ∈ files, ∃ evs, read_event_file jl (fsys f) = .ok evs ∧
      ∀ ev ∈ evs, ∀ row, admitRow (res f) ev = some row →
        row.event_id ∈ t.map (fun r => r.event_id)) :
    ingest_raw jl fsys res t files = .ok (t, files.map res) := by
  induction files with
  | nil => rfl
  | cons f rest ih =>
    obtain ⟨evs, hr, hadm⟩ := h f (List.mem_cons_self f rest)
    rw [ingest_raw_cons_ok hr]
    have ht' : (evs.foldl (processRecord (res f)) (t, initCounters)).1 = t := by
      rw [foldProcess_eq_upsert]
      exact upsertFold_noop _ hadm
    rw [ht', ih (fun g hg => h g (List.mem_cons_of_mem f hg))]
    rfl

/-- C3: re-running `ingest_raw` over the same file list against the table
it produced changes nothing: the table (hence the `raw_events` row count)
and the processed list are those of the single run — every admitted
`event_id` is already present and the keyed `INSERT OR IGNORE` absorbs it
silently, with no error and no duplicate row. -/
theorem C3_reingest_noop {jl : String → Option JsonVal}
    {fsys : String → Except String String} {res : String → String}
    {t t1 : List RawRow} {files ps : List String}
    (h : ingest_raw jl fsys res t files = .ok (t1, ps)) :
    ingest_raw jl fsys res t1 files = .ok (t1, ps) := by
  obtain ⟨hps, -, hfiles⟩ := ingest_ok_spec h
  rw [hps]
  exact ingest_noop hfiles

/-- C3 witness: ingesting the one-record file twice leaves the one-row
table of the first ingestion unchanged. -/
theorem C3_witness :
    ingest_raw cexJsonLoads cexFs id c3Tbl ["f"] = .ok (c3Tbl, ["f"]) :=
  @C3_reingest_noop cexJsonLoads cexFs id [] c3Tbl ["f"] ["f"] (by rfl)

end Pipeline

namespace Pipeline

/-! ## C2: idempotent normalization -/

theorem refreshUser_user_id (raw : List RawRow) (u : UserRow) :
    (refreshUser raw u).user_id = u.user_id := by
  unfold refreshUser
  split <;> rfl

theorem refreshUser_idem (raw : List RawRow) (u : UserRow) :
    refreshUser raw (refreshUser raw u) = refreshUser raw u := by
  by_cases h : u.user_id ∈ rawUserIds raw <;> simp [refreshUser, h]

theorem refreshDoc_document_id (raw : List RawRow) (d : DocRow) :
    (refreshDoc raw d).document_id = d.document_id := by
  unfold refreshDoc
  split <;> rfl

theorem refreshDoc_idem (raw : List RawRow) (d : DocRow) :
    refreshDoc raw (refreshDoc raw d) = refreshDoc raw d := by
  by_cases h : d.document_id ∈ rawDocIds raw <;> simp [refreshDoc, h]

theorem map_self_idem {ρ : Type} (g : ρ → ρ) (h : ∀ x, g (g x) = g x) (l : List ρ) :
    (l.map g).map g = l.map g := by
  rw [List.map_map]
  exact List.map_congr_left (fun x _ => h x)

theorem keys_map_refreshUser (raw : List RawRow) (l : List UserRow) :
    (l.map (refreshUser raw)).map (fun u => u.user_id) = l.map (fun u => u.user_id) := by
  rw [List.map_map]
  exact List.map_congr_left (fun u _ => refreshUser_user_id raw u)

theorem keys_map_refreshDoc (raw : List RawRow) (l : List DocRow) :
    (l.map (refreshDoc raw)).map (fun d => d.document_id) =
      l.map (fun d => d.document_id) := by
  rw [List.map_map]
  exact List.map_congr_left (fun d _ => refreshDoc_document_id raw d)

theorem transform_users_idem (raw : List RawRow) (users : List UserRow) :
    transform_users raw (transform_users raw users) = transform_users raw users := by
  unfold transform_users
  have h1 : upsertFold (fun u => u.user_id) (fun uid => some (mkUserRow raw uid))
      ((upsertFold (fun u => u.user_id) (fun uid => some (mkUserRow raw uid)) users
        (rawUserIds raw)).map (refreshUser raw)) (rawUserIds raw) =
      (upsertFold (fun u => u.user_id) (fun uid => some (mkUserRow raw uid)) users
        (rawUserIds raw)).map (refreshUser raw) := by
    apply upsertFold_noop
    intro uid hu r hr
    cases hr
    rw [keys_map_refreshUser]
    exact upsertFold_key_mem _ hu rfl
  rw [h1]
  exact map_self_idem _ (refreshUser_idem raw) _

theorem mkDocRow_document_id (pick : List RawRow → Option RawRow)
    (raw : List RawRow) (did : String) : (mkDocRow pick raw did).document_id = did := by
  cases h : pick (raw.filter (fun r => r.document_id == some did)) <;>
    simp [mkDocRow, h]

theorem transform_documents_idem (pick1 pick2 : List RawRow → Option RawRow)
    (raw : List RawRow) (docs : List DocRow) :
    transform_documents pick2 raw (transform_documents pick1 raw docs) =
      transform_documents pick1 raw docs := by
  unfold transform_documents
  have h1 : upsertFold (fun d => d.document_id) (fun did => some (mkDocRow pick2 raw did))
      ((upsertFold (fun d => d.document_id) (fun did => some (mkDocRow pick1 raw did)) docs
        (rawDocIds raw)).map (refreshDoc raw)) (rawDocIds raw) =
      (upsertFold (fun d => d.document_id) (fun did => some (mkDocRow pick1 raw did)) docs
        (rawDocIds raw)).map (refreshDoc raw) := by
    apply upsertFold_noop
    intro did hd r hr
    cases hr
    rw [keys_map_refreshDoc]
    rw [mkDocRow_document_id pick2 raw did, ← mkDocRow_document_id pick1 raw did]
    exact upsertFold_key_mem _ hd rfl
  rw [h1]
  exact map_self_idem _ (refreshDoc_idem raw) _

theorem transform_events_idem (raw : List RawRow) (events : List EventRow) :
    transform_events raw (transform_events raw events) = transform_events raw events := by
  unfold transform_events
  apply upsertFold_noop
  intro r hr row hrow
  exact upsertFold_key_mem _ hr hrow

/-- C2: running the normalization stage twice over an unchanged
`raw_events` table leaves the `users`, `documents` and `events` tables
after the second run identical to their contents after the first run,
whatever group-representative choice the engine makes in either run. -/
theorem C2_normalization_idempotent (pick1 pick2 : List RawRow → Option RawRow) (db : DB) :
    (run_transformations pick2 (run_transformations pick1 db)).users =
      (run_transformations pick1 db).users ∧
    (run_transformations pick2 (run_transformations pick1 db)).documents =
      (run_transformations pick1 db).documents ∧
    (run_transformations pick2 (run_transformations pick1 db)).events =
      (run_transformations pick1 db).events := by
  refine ⟨?_, ?_, ?_⟩
  · simp only [run_transformations]
    exact transform_users_idem db.raw_events db.users
  · simp only [run_transformations]
    exact transform_documents_idem pick1 pick2 db.raw_events db.documents
  · simp only [run_transformations]
    exact transform_events_idem db.raw_events db.events

end Pipeline

namespace Pipeline

/-! ## C4: checkpoint correctness -/

theorem save_checkpoint_eq (chk : CheckpointFile) (paths : List String) :
    save_checkpoint chk paths =
      chk ++ (paths.map (fun p => p.toList ++ ['\n'])).flatten := by
  induction paths generalizing chk with
  | nil => simp [save_checkpoint]
  | cons p rest ih =>
    show save_checkpoint (chk ++ p.toList ++ ['\n']) rest = _
    rw [ih]
    simp [List.append_assoc]

theorem UN_crlf (rest : List Char) :
    universalNewlines ('\r' :: '\n' :: rest) = '\n' :: universalNewlines rest := rfl

theorem UN_cons_ne {c : Char} (rest : List Char) (h : c ≠ '\r') :
    universalNewlines (c :: rest) = c :: universalNewlines rest := by
  simp [universalNewlines, h]

theorem UN_lone_cr {rest : List Char} (h : ∀ r2, rest ≠ '\n' :: r2) :
    universalNewlines ('\r' :: rest) = '\n' :: universalNewlines rest := by
  cases rest with
  | nil => rfl
  | cons c2 r2 =>
    by_cases h2 : c2 = '\n'
    · exact absurd (h2 ▸ rfl) (h r2)
    · simp [universalNewlines, h2]

theorem UN_ne_nil {xs : List Char} (h : xs ≠ []) : universalNewlines xs ≠ [] := by
  induction xs using universalNewlines.induct with
  | case1 => exact absurd rfl h
  | case2 rest ih => rw [UN_crlf]; exact List.cons_ne_nil _ _
  | case3 rest hne ih =>
    rw [UN_lone_cr (fun r2 he => hne r2 he)]
    exact List.cons_ne_nil _ _
  | case4 c rest hne hcr ih =>
    rw [UN_cons_ne rest (fun he => hcr he)]
    exact List.cons_ne_nil _ _

theorem UN_no_cr (xs : List Char) : '\r' ∉ universalNewlines xs := by
  induction xs using universalNewlines.induct with
  | case1 => simp [universalNewlines]
  | case2 rest ih =>
    rw [UN_crlf]
    simp only [List.mem_cons]
    rintro (h | h)
    · cases h
    · exact ih h
  | case3 rest hne ih =>
    rw [UN_lone_cr (fun r2 he => hne r2 he)]
    simp only [List.mem_cons]
    rintro (h | h)
    · cases h
    · exact ih h
  | case4 c rest hne hcr ih =>
    rw [UN_cons_ne rest (fun he => hcr he)]
    simp only [List.mem_cons]
    rintro (h | h)
    · exact hcr h.symm
    · exact ih h

theorem UN_append_safe {xs : List Char} (ys : List Char) (h : '\r' ∉ xs) :
    universalNewlines (xs ++ ys) = xs ++ universalNewlines ys := by
  induction xs with
  | nil => rfl
  | cons c rest ih =>
    have hc : c ≠ '\r' := fun he => h (he ▸ List.mem_cons_self c rest)
    rw [List.cons_append, UN_cons_ne (rest ++ ys) hc,
      ih (fun hm => h (List.mem_cons_of_mem c hm)), List.cons_append]

theorem UN_split {xs : List Char} (ys : List Char) (h : xs.getLast? = some '\n') :
    universalNewlines (xs ++ ys) = universalNewlines xs ++ universalNewlines ys := by
  induction xs using universalNewlines.induct with
  | case1 => cases h
  | case2 rest ih =>
    cases rest with
    | nil =>
      rw [show ('\r' :: '\n' :: ([] : List Char)) ++ ys = '\r' :: '\n' :: ys from rfl,
        UN_crlf, UN_crlf]
      rfl
    | cons c2 r2 =>
      rw [List.getLast?_cons_cons, List.getLast?_cons_cons] at h
      rw [List.cons_append, List.cons_append, UN_crlf, ih h, UN_crlf, List.cons_append]
  | case3 rest hne ih =>
    cases rest with
    | nil => simp at h
    | cons c2 r2 =>
      have hc2 : c2 ≠ '\n' := fun he => hne r2 (by rw [he])
      rw [List.getLast?_cons_cons] at h
      have h1 : ∀ r', (c2 :: r2) ++ ys ≠ '\n' :: r' := by
        intro r' he
        rw [List.cons_append] at he
        injection he with he1 _
        exact hc2 he1
      have h2 : ∀ r', c2 :: r2 ≠ '\n' :: r' := by
        intro r' he
        injection he with he1 _
        exact hc2 he1
      rw [List.cons_append, UN_lone_cr h1, ih h, UN_lone_cr h2, List.cons_append]
  | case4 c rest hne hcr ih =>
    have hc : c ≠ '\r' := fun he => hcr he
    cases rest with
    | nil =>
      rw [List.cons_append, List.nil_append, UN_cons_ne ys hc, UN_cons_ne [] hc]
      rfl
    | cons c2 r2 =>
      rw [List.getLast?_cons_cons] at h
      rw [List.cons_append, UN_cons_ne ((c2 :: r2) ++ ys) hc, ih h,
        UN_cons_ne (c2 :: r2) hc, List.cons_append]

theorem UN_getLast {xs : List Char} (h : xs.getLast? = some '\n') :
    (universalNewlines xs).getLast? = some '\n' := by
  induction xs using universalNewlines.induct with
  | case1 => cases h
  | case2 rest ih =>
    cases rest with
    | nil => rfl
    | cons c2 r2 =>
      rw [List.getLast?_cons_cons, List.getLast?_cons_cons] at h
      rw [UN_crlf, show ('\n' :: universalNewlines (c2 :: r2)) =
        ['\n'] ++ universalNewlines (c2 :: r2) from rfl,
        List.getLast?_append_of_ne_nil _ (UN_ne_nil (List.cons_ne_nil c2 r2))]
      exact ih h
  | case3 rest hne ih =>
    cases rest with
    | nil => simp at h
    | cons c2 r2 =>
      rw [List.getLast?_cons_cons] at h
      rw [UN_lone_cr (fun r2' he => hne r2' he),
        show ('\n' :: universalNewlines (c2 :: r2)) =
          ['\n'] ++ universalNewlines (c2 :: r2) from rfl,
        List.getLast?_append_of_ne_nil _ (UN_ne_nil (List.cons_ne_nil c2 r2))]
      exact ih h
  | case4 c rest hne hcr ih =>
    have hc : c ≠ '\r' := fun he => hcr he
    cases rest with
    | nil =>
      have hcn : c = '\n' := by simpa using h
      subst hcn
      rfl
    | cons c2 r2 =>
      rw [List.getLast?_cons_cons] at h
      rw [UN_cons_ne (c2 :: r2) hc,
        show (c :: universalNewlines (c2 :: r2)) =
          [c] ++ universalNewlines (c2 :: r2) from rfl,
        List.getLast?_append_of_ne_nil _ (UN_ne_nil (List.cons_ne_nil c2 r2))]
      exact ih h

theorem PS_break (xs ys : List Char) : ∀ acc,
    pySplitlinesAux (xs ++ '\n' :: ys) acc =
      pySplitlinesAux (xs ++ ['\n']) acc ++ pySplitlinesAux ys [] := by
  induction xs with
  | nil =>
    intro acc
    simp only [List.nil_append, pySplitlinesAux]
    rw [if_pos (by decide), if_pos (by decide)]
    rfl
  | cons c rest ih =>
    intro acc
    simp only [List.cons_append, pySplitlinesAux, List.append_eq]
    by_cases hb : pyIsLineBreak c = true
    · rw [if_pos hb, if_pos hb, ih []]
      rfl
    · rw [if_neg hb, if_neg hb, ih (c :: acc)]

theorem PS_line {r : List Char} (h : ∀ c ∈ r, pyIsLineBreak c = false) :
    ∀ acc, pySplitlinesAux (r ++ ['\n']) acc = [acc.reverse ++ r] := by
  induction r with
  | nil =>
    intro acc
    simp only [List.nil_append, pySplitlinesAux]
    rw [if_pos (by decide)]
    simp [pySplitlinesAux]
  | cons c rest ih =>
    intro acc
    simp only [List.cons_append, pySplitlinesAux, List.append_eq]
    rw [if_neg (by simp [h c (List.mem_cons_self c rest)])]
    rw [ih (fun c2 hm => h c2 (List.mem_cons_of_mem c hm)) (c :: acc)]
    simp

theorem PS_mem_nilpre (r suf : List Char) (hr : ∀ c ∈ r, pyIsLineBreak c = false) :
    r ∈ pySplitlinesAux (r ++ '\n' :: suf) [] := by
  rw [PS_break r suf [], PS_line hr []]
  simp

theorem PS_mem {pre : List Char} (r suf : List Char)
    (hpre : pre = [] ∨ pre.getLast? = some '\n')
    (hr : ∀ c ∈ r, pyIsLineBreak c = false) :
    r ∈ pySplitlinesAux (pre ++ (r ++ '\n' :: suf)) [] := by
  rcases hpre with rfl | hlast
  · rw [List.nil_append]
    exact PS_mem_nilpre r suf hr
  · have hne : pre ≠ [] := by
      intro h0
      rw [h0] at hlast
      cases hlast
    have hg : pre.getLast hne = '\n' := by
      rw [List.getLast?_eq_getLast pre hne] at hlast
      exact (Option.some.injEq _ _).mp hlast
    have hdecomp : pre = pre.dropLast ++ ['\n'] := by
      conv_lhs => rw [← List.dropLast_append_getLast hne]
      rw [hg]
    rw [hdecomp, List.append_assoc, List.singleton_append, PS_break, List.mem_append]
    exact Or.inr (PS_mem_nilpre r suf hr)

theorem flatten_lines_getLast? (l : List String) (h : l ≠ []) :
    ((l.map (fun q => q.toList ++ ['\n'])).flatten).getLast? = some '\n' := by
  induction l with
  | nil => exact absurd rfl h
  | cons q rest ih =>
    rw [List.map_cons, List.flatten_cons]
    cases rest with
    | nil => simp
    | cons q2 rest2 =>
      rw [List.getLast?_append_of_ne_nil]
      · exact ih (by simp)
      · rw [List.map_cons, List.flatten_cons]
        simp

/-- C4 counterexample: the paths `"a\nb"` and `"a\rb"` (legal POSIX
paths; the second contains no newline) are written to the checkpoint by
`save_checkpoint`, yet a subsequent `find_new_files` over the unchanged
root re-selects them: universal-newline decoding plus `splitlines` turns
each written line into two checkpoint entries, neither equal to the
resolved path. -/
theorem C4_counterexample :
    find_new_files (save_checkpoint [] ["a\nb"]) id ["a\nb"] = ["a\nb"] ∧
    load_checkpoint (save_checkpoint [] ["a\nb"]) = [['a'], ['b']] ∧
    find_new_files (save_checkpoint [] ["a\rb"]) id ["a\rb"] = ["a\rb"] ∧
    load_checkpoint (save_checkpoint [] ["a\rb"]) = [['a'], ['b']] := by
  refine ⟨?_, ?_, ?_, ?_⟩ <;> decide

/-- C4 amended: a file path written to the checkpoint by
`save_checkpoint` is never again returned by `find_new_files` over an
unchanged root, provided its resolved path contains no character that
Python's `splitlines` treats as a line boundary (newline, carriage
return, vertical tab, form feed, the file/group/record separators, NEL,
LINE/PARAGRAPH SEPARATOR) and the prior checkpoint content is empty or
newline-terminated (the invariant `save_checkpoint` itself maintains
from an absent file); comparison uses resolved path strings on both
sides.  A path containing any such boundary character is split across
checkpoint lines on load and re-selected. -/
theorem C4_checkpointed_not_reselected (chk : CheckpointFile) (paths : List String)
    (all_files : List String) (resolve : String → String) (p : String)
    (hwf : chk = [] ∨ chk.getLast? = some '\n')
    (hmem : resolve p ∈ paths)
    (hnb : ∀ c ∈ (resolve p).toList, pyIsLineBreak c = false) :
    p ∉ find_new_files (save_checkpoint chk paths) resolve all_files := by
  intro hp
  rw [find_new_files, List.mem_filter] at hp
  obtain ⟨-, hcond⟩ := hp
  have hcr : '\r' ∉ (resolve p).toList := by
    intro hm
    have hfalse := hnb '\r' hm
    rw [show pyIsLineBreak '\r' = true from by decide] at hfalse
    cases hfalse
  have hmemline : (resolve p).toList ∈ load_checkpoint (save_checkpoint chk paths) := by
    obtain ⟨l, l', rfl⟩ := List.append_of_mem hmem
    have hcontent : save_checkpoint chk (l ++ resolve p :: l') =
        (chk ++ (l.map (fun q => q.toList ++ ['\n'])).flatten) ++
          ((resolve p).toList ++ '\n' ::
            (l'.map (fun q => q.toList ++ ['\n'])).flatten) := by
      rw [save_checkpoint_eq]
      simp [List.append_assoc]
    rw [hcontent, load_checkpoint]
    have hpre : chk ++ (l.map (fun q => q.toList ++ ['\n'])).flatten = [] ∨
        (chk ++ (l.map (fun q => q.toList ++ ['\n'])).flatten).getLast? = some '\n' := by
      cases l with
      | nil =>
        rcases hwf with rfl | hlast
        · exact Or.inl rfl
        · refine Or.inr ?_
          simpa using hlast
      | cons q rest =>
        refine Or.inr ?_
        rw [List.getLast?_append_of_ne_nil]
        · exact flatten_lines_getLast? (q :: rest) (by simp)
        · rw [List.map_cons, List.flatten_cons]
          simp
    have hUN : universalNewlines
        ((chk ++ (l.map (fun q => q.toList ++ ['\n'])).flatten) ++
          ((resolve p).toList ++ '\n' ::
            (l'.map (fun q => q.toList ++ ['\n'])).flatten)) =
        universalNewlines (chk ++ (l.map (fun q => q.toList ++ ['\n'])).flatten) ++
          ((resolve p).toList ++ '\n' :: universalNewlines
            ((l'.map (fun q => q.toList ++ ['\n'])).flatten)) := by
      rcases hpre with h0 | hlast
      · rw [h0, List.nil_append, show universalNewlines ([] : List Char) = [] from rfl,
          List.nil_append, UN_append_safe _ hcr, UN_cons_ne _ (by decide)]
      · rw [UN_split _ hlast, UN_append_safe _ hcr, UN_cons_ne _ (by decide)]
    rw [hUN]
    refine PS_mem (resolve p).toList _ ?_ hnb
    rcases hpre with h0 | hlast
    · exact Or.inl (by rw [h0]; rfl)
    · exact Or.inr (UN_getLast hlast)
  simp at hcond
  exact hcond hmemline

/-- C4 witness: the amended guarantee at a concrete checkpointed path. -/
theorem C4_witness :
    "data/events/a.json" ∉
      find_new_files (save_checkpoint [] ["data/events/a.json"]) id
        ["data/events/a.json", "data/events/b.json"] :=
  C4_checkpointed_not_reselected [] ["data/events/a.json"]
    ["data/events/a.json", "data/events/b.json"] id "data/events/a.json"
    (Or.inl rfl) (List.mem_singleton.mpr rfl) (by decide)

end Pipeline

namespace Pipeline

/-! ## C5: document title/owner aggregation -/

theorem upsertFold_cons_total {ρ : Type} (key : ρ → String) (mkT : String → ρ)
    (i : String) (ids : List String) (t : List ρ) :
    upsertFold key (fun j => some (mkT j)) t (i :: ids) =
      upsertFold key (fun j => some (mkT j)) (insertOrIgnoreBy key t (mkT i)) ids := rfl

theorem find?_upsertFold_fresh {ρ : Type} (key : ρ → String) (mk : String → ρ)
    (hkey : ∀ i, key (mk i) = i) {ids : List String} (hnd : ids.Nodup)
    {t : List ρ} {did : String} (hdid : did ∈ ids) (hfresh : did ∉ t.map key) :
    (upsertFold key (fun i => some (mk i)) t ids).find? (fun x => key x == did) =
      some (mk did) := by
  induction ids generalizing t with
  | nil => cases hdid
  | cons i rest ih =>
    rcases List.mem_cons.mp hdid with rfl | hmem
    · rw [upsertFold_cons_total key mk did rest t,
        insertOrIgnoreBy_of_not_mem key (by rw [hkey]; exact hfresh)]
      have hrest : ∀ a ∈ rest, ∀ r, (fun j => some (mk j)) a = some r → key r ≠ did := by
        intro a ha r hr hkr
        cases hr
        rw [hkey] at hkr
        exact (List.nodup_cons.mp hnd).1 (hkr ▸ ha)
      rw [find?_upsertFold_of_ne key hrest, List.find?_append]
      have h1 : t.find? (fun x => key x == did) = none := by
        rw [List.find?_eq_none]
        intro x hx hbx
        exact hfresh (List.mem_map.mpr ⟨x, hx, by simpa using hbx⟩)
      rw [h1]
      simp [List.find?, hkey]
    · have hne : i ≠ did := by
        intro he
        exact (List.nodup_cons.mp hnd).1 (he ▸ hmem)
      rw [upsertFold_cons_total key mk i rest t]
      refine ih (List.nodup_cons.mp hnd).2 hmem ?_
      unfold insertOrIgnoreBy
      split
      · exact hfresh
      · rw [List.map_append]
        simp only [List.map_cons, List.map_nil, List.mem_append, List.mem_singleton, hkey]
        rintro (hl | hr)
        · exact hfresh hl
        · exact hne hr.symm

theorem refreshDoc_title (raw : List RawRow) (d : DocRow) :
    (refreshDoc raw d).title = d.title := by
  unfold refreshDoc
  split <;> rfl

theorem refreshDoc_owner (raw : List RawRow) (d : DocRow) :
    (refreshDoc raw d).owner_user_id = d.owner_user_id := by
  unfold refreshDoc
  split <;> rfl

/-- C5 counterexample: two raw rows share `document_id` `"d1"`; the first
row's payload yields the non-null title candidate `"T"`, yet with the
engine's current bare-column choice (the last row of the group) the
Document row stores a NULL title — refuting the claim that any non-null
candidate among the rows sharing the id makes the stored field non-null. -/
theorem C5_counterexample :
    (transform_documents pickLast c5Raw []).map (fun d => (d.document_id, d.title)) =
      [("d1", SqlV.null)] ∧
    c5Raw.map (fun row => row.document_id) = [some "d1", some "d1"] ∧
    c5Raw.map (fun row =>
        textAffinity (sqlCoalesce (titlePaths.map (json_extract row.raw_json)))) =
      [SqlV.text "T", SqlV.null] := by
  refine ⟨?_, ?_, ?_⟩ <;> rfl

/-- C5 amended: for a document id not yet present in `documents` and
having rows in `raw_events`, the created Document row evaluates the
ordered JSON-path candidate lists (`document.title` then `title`;
`document.owner_user_id` then `owner_user_id` then `ownerUserId`) with
first-non-null-wins on ONE engine-chosen row of the group (any member;
SQLite documents the choice as arbitrary); the stored field is non-null
exactly when that chosen row yields a non-null candidate, and may be NULL
even though another row sharing the id yields a non-null value. -/
theorem C5_title_owner_from_chosen_row (pick : List RawRow → Option RawRow)
    (raw : List RawRow) (docs : List DocRow) (did : String) (r : RawRow)
    (hpick : ∀ l x, pick l = some x → x ∈ l)
    (hfresh : did ∉ docs.map (fun d => d.document_id))
    (hp : pick (raw.filter (fun row => row.document_id == some did)) = some r) :
    r ∈ raw.filter (fun row => row.document_id == some did) ∧
    (transform_documents pick raw docs).find? (fun d => d.document_id == did) =
      some (refreshDoc raw (mkDocRow pick raw did)) ∧
    (mkDocRow pick raw did).title =
      textAffinity (sqlCoalesce (titlePaths.map (json_extract r.raw_json))) ∧
    (mkDocRow pick raw did).owner_user_id =
      textAffinity (sqlCoalesce (ownerPaths.map (json_extract r.raw_json))) ∧
    (refreshDoc raw (mkDocRow pick raw did)).title = (mkDocRow pick raw did).title ∧
    (refreshDoc raw (mkDocRow pick raw did)).owner_user_id =
      (mkDocRow pick raw did).owner_user_id := by
  have hrmem : r ∈ raw.filter (fun row => row.document_id == some did) := hpick _ r hp
  have hdid : did ∈ rawDocIds raw := by
    rw [rawDocIds, mem_distinctKeys]
    obtain ⟨hraw, hpred⟩ := List.mem_filter.mp hrmem
    exact ⟨r, hraw, by simpa using hpred⟩
  refine ⟨hrmem, ?_, by simp [mkDocRow, hp], by simp [mkDocRow, hp],
    refreshDoc_title raw _, refreshDoc_owner raw _⟩
  have h1 := @find?_map_key_preserving DocRow (fun d => d.document_id) (refreshDoc raw)
    (upsertFold (fun d => d.document_id) (fun j => some (mkDocRow pick raw j)) docs
      (rawDocIds raw)) did (refreshDoc_document_id raw)
  have h2 := find?_upsertFold_fresh (fun d => d.document_id) (mkDocRow pick raw)
    (mkDocRow_document_id pick raw) (distinctKeys_nodup _ raw) hdid hfresh
  rw [transform_documents]
  exact h1.trans ((congrArg (Option.map (refreshDoc raw)) h2).trans rfl)

/-- C5 witness: the amended description at the concrete two-row group,
under the last-row choice. -/
theorem C5_witness :
    { event_id := "e2", event_type := some "x", event_ts := none, user_id := none,
      document_id := some "d1", source_file := "f",
      raw_json := JsonVal.obj [] : RawRow } ∈
      c5Raw.filter (fun row => row.document_id == some "d1") ∧
    (transform_documents pickLast c5Raw []).find? (fun d => d.document_id == "d1") =
      some (refreshDoc c5Raw (mkDocRow pickLast c5Raw "d1")) ∧
    (mkDocRow pickLast c5Raw "d1").title =
      textAffinity (sqlCoalesce (titlePaths.map (json_extract (JsonVal.obj [])))) ∧
    (mkDocRow pickLast c5Raw "d1").owner_user_id =
      textAffinity (sqlCoalesce (ownerPaths.map (json_extract (JsonVal.obj [])))) ∧
    (refreshDoc c5Raw (mkDocRow pickLast c5Raw "d1")).title =
      (mkDocRow pickLast c5Raw "d1").title ∧
    (refreshDoc c5Raw (mkDocRow pickLast c5Raw "d1")).owner_user_id =
      (mkDocRow pickLast c5Raw "d1").owner_user_id :=
  C5_title_owner_from_chosen_row pickLast c5Raw [] "d1"
    { event_id := "e2", event_type := some "x", event_ts := none, user_id := none,
      document_id := some "d1", source_file := "f", raw_json := JsonVal.obj [] }
    (fun l x h => by
      obtain ⟨hne, rfl⟩ := List.mem_getLast?_eq_getLast ((Option.mem_def).mpr h)
      exact List.getLast_mem hne)
    (by simp)
    (by rfl)

end Pipeline
